import Mathlib

/-!
Verification development for the mind-map visualization core
(`src/components/MindMapGraph.tsx` together with `src/types.ts`).

The component delegates hierarchy construction and tidy-tree layout to
`d3.hierarchy` / `d3.tree` and pan/zoom to `d3.zoom`; those library
routines are embedded here faithfully from their (well-known) sources,
since the component's observable behaviour is exactly theirs.
Coordinates and scales are modelled over `ℚ` (the JS numbers are IEEE
doubles; every claim under study is about exact algebraic relations).
DOM state is modelled as total functions from node paths to visual
attribute records; only values at paths of the current tree are
observable, and every theorem quantifies over those.
-/

namespace Synapse

/-- `MindMapNode` from `src/types.ts`:
`{ name: string, details?: string, children?: MindMapNode[] }`. -/
inductive MindMapNode where
  | node (name : String) (details : Option String) (children : List MindMapNode)

namespace MindMapNode

def name : MindMapNode → String
  | .node nm _ _ => nm

def children : MindMapNode → List MindMapNode
  | .node _ _ cs => cs

mutual
/-- Number of raw nodes in the input tree. -/
def size : MindMapNode → Nat
  | .node _ _ cs => 1 + sizeList cs
def sizeList : List MindMapNode → Nat
  | [] => 0
  | c :: cs => size c + sizeList cs
end

mutual
/-- Height of the tree: a single node has height 0 (root depth 0,
deepest node depth = height). -/
def height : MindMapNode → Nat
  | .node _ _ cs => match cs with
    | [] => 0
    | _ => 1 + heightList cs
def heightList : List MindMapNode → Nat
  | [] => 0
  | c :: cs => max (height c) (heightList cs)
end

end MindMapNode

mutual
/-- Every node of the tree is identified by its path of child indices
from the root (the root is `[]`).  These are exactly the nodes that
`d3.hierarchy(data)` produces and that the component renders (one DOM
group per `root.descendants()` entry); listed in depth-first preorder
(the claims below only use membership, counts and depths, which do not
depend on the enumeration order — d3 enumerates level-by-level). -/
def nodePaths : MindMapNode → List (List Nat)
  | .node _ _ cs => [] :: nodePathsList 0 cs
def nodePathsList : Nat → List MindMapNode → List (List Nat)
  | _, [] => []
  | i, c :: cs => (nodePaths c).map (fun p => i :: p) ++ nodePathsList (i + 1) cs
end

mutual
/-- Paths of all nodes in left-to-right postorder (the order in which
d3's `eachAfter` visits nodes). -/
def postorder : MindMapNode → List (List Nat)
  | .node _ _ cs => postorderList 0 cs ++ [[]]
def postorderList : Nat → List MindMapNode → List (List Nat)
  | _, [] => []
  | i, c :: cs => (postorder c).map (fun p => i :: p) ++ postorderList (i + 1) cs
end

/-- Look up the subtree at a path. -/
def getAt (t : MindMapNode) : List Nat → Option MindMapNode
  | [] => some t
  | i :: p => match t.children[i]? with
    | some c => getAt c p
    | none => none

/-- Name of the node at a path (empty for invalid paths; claims only
use valid ones). -/
def nameAt (t : MindMapNode) (p : List Nat) : String :=
  match getAt t p with
  | some n => n.name
  | none => ""

inductive HierarchyNode where
  | mk (name : String) (depth : Nat) (children : List HierarchyNode)

namespace HierarchyNode

def name : HierarchyNode → String
  | .mk nm _ _ => nm

def depth : HierarchyNode → Nat
  | .mk _ d _ => d

def children : HierarchyNode → List HierarchyNode
  | .mk _ _ cs => cs

mutual
def count : HierarchyNode → Nat
  | .mk _ _ cs => 1 + countList cs
def countList : List HierarchyNode → Nat
  | [] => 0
  | c :: cs => count c + countList cs
end

mutual
/-- Largest `depth` value occurring in the hierarchy. -/
def maxDepth : HierarchyNode → Nat
  | .mk _ d cs => max d (maxDepthList cs)
def maxDepthList : List HierarchyNode → Nat
  | [] => 0
  | c :: cs => max (maxDepth c) (maxDepthList cs)
end

end HierarchyNode

mutual
/-- `d3.hierarchy` construction at a given depth (the component calls
it at the root, depth 0, line 52 of `MindMapGraph.tsx`). -/
def buildH (d : Nat) : MindMapNode → HierarchyNode
  | .node nm _ cs => .mk nm d (buildHList (d + 1) cs)
def buildHList (d : Nat) : List MindMapNode → List HierarchyNode
  | [] => []
  | c :: cs => buildH d c :: buildHList d cs
end

mutual
/-- Shape comparison: the hierarchy has exactly one node per raw node,
with the same name and the children in the same order. -/
def sameShape : MindMapNode → HierarchyNode → Bool
  | .node nm _ cs, .mk nm' _ hs => nm = nm' && sameShapeList cs hs
def sameShapeList : List MindMapNode → List HierarchyNode → Bool
  | [], [] => true
  | c :: cs, h :: hs => sameShape c h && sameShapeList cs hs
  | _, _ => false
end

/-- A degenerate deep chain: `chain n` has a single path of `n + 1`
nodes, the deepest at depth `n`. -/
def chain : Nat → MindMapNode
  | 0 => .node "leaf" none []
  | n + 1 => .node ("lvl" ++ toString n) none [chain n]

/-- The path of the deepest node of `chain n`. -/
def chainPath (n : Nat) : List Nat := List.replicate n 0

/-! ### ViewportTransform: `d3.zoom` transforms (d3-zoom `transform.js`, `zoom.js`)

The component configures `scaleExtent([0.1, 4])` (line 65) and applies
zoom via wheel/drag gestures and `handleZoom` (lines 193–196, using
`zoom.scaleBy`).  A d3 zoom transform is `{k, x, y}`; screen point of a
world point `w` is `k·w + (x,y)`.  `scaleBy`/`scaleTo` clamp the new
scale to the extent and translate so that the pivot's world point stays
under the pivot (`translate(scale(t, k1), p0, t.invert(p0))`). -/

structure Transform where
  k : ℚ
  x : ℚ
  y : ℚ
deriving DecidableEq

/-- `scaleExtent([0.1, 4])`, lower bound. -/
def scaleMin : ℚ := 1/10

/-- `scaleExtent([0.1, 4])`, upper bound. -/
def scaleMax : ℚ := 4

/-- d3's `scale` helper: `Math.max(e0, Math.min(e1, k))`. -/
def clampScale (k : ℚ) : ℚ := max scaleMin (min scaleMax k)

/-- Zoom by `factor` about screen pivot `(px, py)` — the semantics of
`d3.zoom().scaleExtent([0.1,4])` under `scaleBy`/wheel zoom: the new
scale is the clamped product and the translation keeps the pivot's
world point fixed on screen. -/
def zoomBy (factor px py : ℚ) (v : Transform) : Transform :=
  let k1 := clampScale (v.k * factor)
  ⟨k1, px - (px - v.x) * (k1 / v.k), py - (py - v.y) * (k1 / v.k)⟩

/-- Pan by a screen-space delta: translation is additive, the scale is
untouched (d3 drag pan). -/
def panBy (dx dy : ℚ) (v : Transform) : Transform :=
  ⟨v.k, v.x + dx, v.y + dy⟩

/-- `transform.apply(point)`: world → screen. -/
def applyT (v : Transform) (w : ℚ × ℚ) : ℚ × ℚ :=
  (v.k * w.1 + v.x, v.k * w.2 + v.y)

/-- `transform.invert(point)`: screen → world. -/
def invertT (v : Transform) (s : ℚ × ℚ) : ℚ × ℚ :=
  ((s.1 - v.x) / v.k, (s.2 - v.y) / v.k)

/-- The centering transform the component installs after every rebuild
(lines 74–77): `d3.zoomIdentity.translate(margin.left + 50, margin.top).scale(0.8)`
with `margin = {top: 20, left: 120}`, i.e. `{k: 0.8, x: 170, y: 20}`. -/
def centeringTransform : Transform := ⟨4/5, 170, 20⟩

/-- User-driven viewport operations (wheel/pinch zoom routed through
the clamped zoom, drag routed to pan). -/
inductive ViewportOp where
  | pan (dx dy : ℚ)
  | zoom (factor px py : ℚ)

def stepViewport (v : Transform) : ViewportOp → Transform
  | .pan dx dy => panBy dx dy v
  | .zoom f px py => zoomBy f px py v

/-! ### Renderer DOM state

The main render effect (lines 37–131) wipes the SVG and re-creates one
group (circle + label) per hierarchy node and one path per parent→child
link.  Links are keyed by their target node (`l.target === current`,
line 178), so a link is identified by the target's path.  We record
exactly the attributes the component ever reads or writes. -/

structure NodeVisual where
  opacity : ℚ
  fill : String
  stroke : String
  strokeWidth : ℚ
  r : ℚ
  textFill : String
  fontWeight : String
  /-- whether the DOM element carries the CSS class `highlighted`
  (read at line 109; no code ever adds it). -/
  classHighlighted : Bool
deriving DecidableEq

structure LinkVisual where
  stroke : String
  strokeWidth : ℚ
  /-- the `stroke-opacity` attribute (reset at line 152). -/
  strokeOpacity : ℚ
  /-- the `opacity` style (dimmed at line 158, raised at line 181). -/
  opacity : ℚ
deriving DecidableEq

/-- The rendered SVG contents: visuals of the node group at each path
and of the link with each (non-root) target path.  Total functions for
convenience; only paths of the current tree are observable. -/
structure GraphDom where
  node : List Nat → NodeVisual
  link : List Nat → LinkVisual

/-- `d3.schemeSet3`, the cyclic 12-colour palette (line 49). -/
def schemeSet3 : List String :=
  ["#8dd3c7", "#ffffb3", "#bebada", "#fb8072", "#80b1d3", "#fdb462",
   "#b3de69", "#fccde5", "#d9d9d9", "#bc80bd", "#ccebc5", "#ffed6f"]

/-- `d3.scaleOrdinal(d3.schemeSet3)` keyed by `depth.toString()`:
depth keys are first encountered in increasing order, so depth `d` gets
colour `d mod 12`. -/
def palette (d : Nat) : String := schemeSet3.getD (d % 12) ""

/-- Visuals of a freshly rendered node at the given depth
(lines 94–129): default opacity, depth colour, stroke `#94a3b8`,
width 2, radius 10 for the root and 6 otherwise, dark label, normal
weight, no `highlighted` class. -/
def baseNode (depth : Nat) : NodeVisual :=
  { opacity := 1, fill := palette depth, stroke := "#94a3b8",
    strokeWidth := 2, r := if depth = 0 then 10 else 6,
    textFill := "#1e293b", fontWeight := "normal", classHighlighted := false }

/-- Visuals of a freshly rendered link (lines 80–91): stroke `#cbd5e1`,
width 1.5, default opacities. -/
def baseLink : LinkVisual :=
  { stroke := "#cbd5e1", strokeWidth := 3/2, strokeOpacity := 1, opacity := 1 }

/-- The DOM right after the main render effect rebuilt the SVG for a
tree: every node/link carries the base visuals (visuals depend only on
the node's depth = path length). -/
def baseRender (_t : MindMapNode) : GraphDom :=
  ⟨fun p => baseNode p.length, fun _ => baseLink⟩

/-- Update the node visual at one path. -/
def updNode (g : GraphDom) (p : List Nat) (f : NodeVisual → NodeVisual) : GraphDom :=
  { g with node := fun q => if q = p then f (g.node q) else g.node q }

/-- Update the link visual at one target path. -/
def updLink (g : GraphDom) (p : List Nat) (f : LinkVisual → LinkVisual) : GraphDom :=
  { g with link := fun q => if q = p then f (g.link q) else g.link q }

/-! ### SearchHighlighter: the search effect (lines 134–191) -/

/-- `name.toLowerCase().includes(lowerQuery)` on character lists:
JS `includes` — the needle occurs as a contiguous substring (the empty
needle always occurs). -/
def jsIncludes : List Char → List Char → Bool
  | [], needle => needle.isEmpty
  | c :: rest, needle => needle.isPrefixOf (c :: rest) || jsIncludes rest needle

/-- `toLowerCase()` character-wise (ASCII case folding, as both the
node names and queries at hand use). -/
def lowerChars (cs : List Char) : List Char := cs.map Char.toLower

/-- Whether the node at path `p` matches the query: case-insensitive
substring match (line 161,
`d.data.name.toLowerCase().includes(lowerQuery)` with
`lowerQuery = searchQuery.toLowerCase()`). -/
def nodeMatches (t : MindMapNode) (q : String) (p : List Nat) : Bool :=
  jsIncludes (lowerChars (nameAt t p).toList) (lowerChars q.toList)

/-- Paths of the nodes matching the query, in document order
(the `filter` on line 161). -/
def matchedPaths (t : MindMapNode) (q : String) : List (List Nat) :=
  (nodePaths t).filter (fun p => nodeMatches t q p)

/-- The visual overrides applied to a matched node (lines 163–172):
full opacity, red fill `#ef4444`, dark-red stroke `#b91c1c`, radius 10,
dark-red bold label. -/
def matchedVis (n : NodeVisual) : NodeVisual :=
  { n with opacity := 1, fill := "#ef4444", stroke := "#b91c1c", r := 10,
           textFill := "#b91c1c", fontWeight := "bold" }

/-- The visual overrides applied to a link on a match's root path
(lines 178–181): red stroke, width 2, full opacity. -/
def hlLink (l : LinkVisual) : LinkVisual :=
  { l with stroke := "#ef4444", strokeWidth := 2, opacity := 1 }

/-- Structural worker for `walkUp`: the path shrinks by one component
per step, so `cur.length` steps always reach the loop's real exit. -/
def walkUpFuel : Nat → GraphDom → List Nat → GraphDom
  | 0, g, _ => g
  | n + 1, g, cur =>
    if cur = [] then g
    else
      walkUpFuel n (updNode (updLink g cur hlLink) cur.dropLast
        (fun nd => { nd with opacity := 1 })) cur.dropLast

/-- One step of the parent walk (lines 175–188): highlight the link
whose target is `cur` and un-dim `cur`'s parent, then continue from the
parent; the loop stops at the root (`current.parent` null). -/
def walkUp (g : GraphDom) (cur : List Nat) : GraphDom :=
  walkUpFuel cur.length g cur

/-- Processing of one matched node (lines 162–189): raise its opacity,
paint it with the match colours, then walk the parent chain. -/
def applyMatch (g : GraphDom) (m : List Nat) : GraphDom :=
  walkUp (updNode g m matchedVis) m

/-- The reset pass (lines 140–152): restores circle fill/stroke/radius,
label colour/weight and link stroke/stroke-opacity — note it does NOT
touch node or link `opacity` styles, circle stroke widths or link
stroke widths. -/
def resetPass (g : GraphDom) : GraphDom :=
  { node := fun p =>
      { g.node p with fill := palette p.length, stroke := "#94a3b8",
                      r := if p.length = 0 then 10 else 6,
                      textFill := "#1e293b", fontWeight := "normal" },
    link := fun p => { g.link p with stroke := "#cbd5e1", strokeOpacity := 1 } }

/-- The dim pass (lines 157–158): every node and link drops to
opacity 0.3. -/
def dimPass (g : GraphDom) : GraphDom :=
  { node := fun p => { g.node p with opacity := 3/10 },
    link := fun p => { g.link p with opacity := 3/10 } }

/-- The whole search effect (lines 134–191) applied to the current DOM:
reset, then — for a non-empty query only — dim everything and process
each matched node. -/
def applyHighlight (t : MindMapNode) (q : String) (g : GraphDom) : GraphDom :=
  let g1 := resetPass g
  if q = "" then g1
  else (matchedPaths t q).foldl applyMatch (dimPass g1)

/-- The spec-level `matchedNodeIds` component of the HighlightState:
with the empty-query guard of line 154, no node counts as matched for
the empty query; otherwise exactly the case-insensitive substring
matches. -/
def matchedNodeIds (t : MindMapNode) (q : String) : List (List Nat) :=
  if q = "" then [] else matchedPaths t q

/-- The hover-enter handler (lines 104–107): indigo stroke, width 3,
bold label on the hovered node. -/
def hoverEnter (g : GraphDom) (p : List Nat) : GraphDom :=
  updNode g p (fun n =>
    { n with stroke := "#4f46e5", strokeWidth := 3, fontWeight := "bold" })

/-- The hover-leave handler (lines 108–111): stroke `#ef4444` if the
element has the class `highlighted`, otherwise `#94a3b8`; width 2;
normal label weight. -/
def hoverLeave (g : GraphDom) (p : List Nat) : GraphDom :=
  updNode g p (fun n =>
    { n with stroke := if n.classHighlighted then "#ef4444" else "#94a3b8",
             strokeWidth := 2, fontWeight := "normal" })

/-! ### The component as a state machine

React semantics of `MindMapGraph`: the main effect (deps
`[data, dimensions, onNodeClick]`) rebuilds the SVG from scratch and
re-installs the centering transform; the search effect (deps
`[searchQuery]`) mutates the current DOM.  A change of `data` or
`dimensions` therefore reruns only the main effect, and a change of
`searchQuery` only the search effect. -/

structure CompState where
  data : MindMapNode
  /-- `dimensions` state (width, height). -/
  dims : ℚ × ℚ
  query : String
  dom : GraphDom
  viewport : Transform

inductive Event where
  /-- the `data` prop changes (a new input tree). -/
  | setData (t : MindMapNode)
  /-- the container resizes: `handleResize` (lines 22–29) stores
  `(clientWidth, max 600 clientHeight)`. -/
  | resize (w h : ℚ)
  /-- the search input changes. -/
  | setQuery (q : String)
  /-- a user wheel/pinch zoom. -/
  | userZoom (f px py : ℚ)
  /-- a user drag pan. -/
  | userPan (dx dy : ℚ)

def stepComp (s : CompState) : Event → CompState
  | .setData t =>
    { s with data := t, dom := baseRender t, viewport := centeringTransform }
  | .resize w h =>
    { s with dims := (w, max 600 h), dom := baseRender s.data,
             viewport := centeringTransform }
  | .setQuery q =>
    { s with query := q, dom := applyHighlight s.data q s.dom }
  | .userZoom f px py => { s with viewport := zoomBy f px py s.viewport }
  | .userPan dx dy => { s with viewport := panBy dx dy s.viewport }

def runComp (s : CompState) (evs : List Event) : CompState :=
  evs.foldl stepComp s

/-- The component state right after mounting with a tree: first render
plus the initial centering transition. -/
def initComp (t : MindMapNode) : CompState :=
  { data := t, dims := (800, 600), query := "",
    dom := baseRender t, viewport := centeringTransform }

/-! ### TreeLayoutEngine: `d3.tree().size([innerHeight, innerWidth])`

Lines 54–56 of `MindMapGraph.tsx` run d3-hierarchy's tidy-tree layout
(Buchheim–Jünger–Leipert as implemented in d3-hierarchy `tree.js`).
We embed that algorithm over a path-keyed arena: the working fields of
d3's `TreeNode` (`z` prelim, `m` mod, `c` change, `s` shift, `t`
thread, `a` ancestor, `A` default ancestor) become functions from node
paths.  `size([dx, dy])` mode: after the two walks the x coordinates
are rescaled to `[0, dx]` and `y = depth · dy / maxDepth`.  The
component passes `[innerHeight, innerWidth]` and then draws at
`(d.y, d.x)`, so `x` is the cross-axis (vertical) coordinate. -/

structure TreeWork where
  z : List Nat → ℚ
  m : List Nat → ℚ
  c : List Nat → ℚ
  s : List Nat → ℚ
  thr : List Nat → Option (List Nat)
  anc : List Nat → List Nat
  /-- `A` (default ancestor); stored on the parent node's path. -/
  defA : List Nat → Option (List Nat)

def setM (st : TreeWork) (p : List Nat) (v : ℚ) : TreeWork :=
  { st with m := fun q => if q = p then v else st.m q }

def addM (st : TreeWork) (p : List Nat) (v : ℚ) : TreeWork :=
  setM st p (st.m p + v)

def setThr (st : TreeWork) (p : List Nat) (v : Option (List Nat)) : TreeWork :=
  { st with thr := fun q => if q = p then v else st.thr q }

/-- One post-loop thread fixup (`if (tgt && !nr) { w.t = tgt; w.m += d }`):
`tgt` is the surviving contour node, `nr` the contour continuation of
`w` (`nextRight`/`nextLeft` of `w`), so the fixup fires only when `w`
has neither children nor a thread. -/
def threadFix (st : TreeWork) (w : List Nat) (tgt nr : Option (List Nat))
    (d : ℚ) : TreeWork :=
  match tgt, nr with
  | some u, none => addM (setThr st w (some u)) w d
  | _, _ => st

/-- Maximum node depth (`bottom.depth`). -/
def maxPathDepth (t : MindMapNode) : Nat :=
  (nodePaths t).foldl (fun b p => if b < p.length then p.length else b) 0

/-- Final depth-axis coordinate: `node.y = node.depth * dy / (bottom.depth || 1)`. -/
def layoutY (t : MindMapNode) (dy : ℚ) (p : List Nat) : ℚ :=
  let bd := maxPathDepth t
  (p.length : ℚ) * (dy / (if bd = 0 then 1 else (bd : ℚ)))

/-! ### Example trees -/

/-- The Physics example tree from the spec. -/
def physicsTree : MindMapNode :=
  .node "Physics" none
    [.node "Mechanics" none [.node "Kinematics" none []],
     .node "Optics" none []]

/-- A tree whose root has an empty name. -/
def emptyNameRoot : MindMapNode := .node "" none []

/-- A second tree (matching "kine" at a different path), used for the
tree-change scenario. -/
def chemTree : MindMapNode :=
  .node "Chemistry" none [.node "Kinetics" none []]

/-- Induction principle for the nested inductive `MindMapNode`. -/
theorem MindMapNode.ind (P : MindMapNode → Prop)
    (h : ∀ nm dt cs, (∀ c ∈ cs, P c) → P (.node nm dt cs)) : ∀ t, P t
  | .node nm dt cs => h nm dt cs (fun c hc => MindMapNode.ind P h c)
  decreasing_by
    have := List.sizeOf_lt_of_mem hc
    simp only [MindMapNode.node.sizeOf_spec]
    omega

/-! ### ViewportTransform claims (C1, C9, C10) -/

/-- C1 counterexample: after panning away from the centering transform,
a container resize (which reruns the main effect, lines 37–77) does NOT
leave the viewport in effect before the rebuild in effect after it: the
effect transitions back to the fixed centering transform. -/
theorem resize_resets_viewport_cx :
    (stepComp (stepComp (initComp physicsTree) (Event.userPan 10 0))
        (Event.resize 400 300)).viewport
      ≠ (stepComp (initComp physicsTree) (Event.userPan 10 0)).viewport := by
  simp only [stepComp, initComp, panBy, centeringTransform]
  intro h
  have hx := congrArg Transform.x h
  norm_num at hx

/-- C1 amended: every rebuild of the SVG — whether triggered by a
resize or by a new input tree — resets the viewport to the fixed
centering transform `translate(170, 20) scale(0.8)` (lines 74–77
rerun on every change of `data` or `dimensions`); the user's pan/zoom
is not preserved.  Query changes do not rebuild and leave the viewport
alone. -/
theorem rebuild_resets_viewport (s : CompState) :
    (∀ w h, (stepComp s (Event.resize w h)).viewport = centeringTransform) ∧
    (∀ t, (stepComp s (Event.setData t)).viewport = centeringTransform) ∧
    (∀ q, (stepComp s (Event.setQuery q)).viewport = s.viewport) :=
  ⟨fun _ _ => rfl, fun _ => rfl, fun _ => rfl⟩

/-- C9: with the scale inside the extent and no clamp boundary hit,
`zoomBy f p` followed by `zoomBy (1/f) p` restores the transform
exactly; `zoomBy` always keeps the pivot's world point fixed on
screen; and at the clamp boundaries the scale saturates at the extent
ends 0.1 and 4. -/
theorem zoomBy_inverse_and_pivot (v : Transform) (f px py : ℚ)
    (hk1 : scaleMin ≤ v.k) (hk2 : v.k ≤ scaleMax) :
    (scaleMin ≤ v.k * f → v.k * f ≤ scaleMax →
      zoomBy (1/f) px py (zoomBy f px py v) = v) ∧
    applyT (zoomBy f px py v) (invertT v (px, py)) = (px, py) ∧
    (v.k * f ≤ scaleMin → (zoomBy f px py v).k = scaleMin) ∧
    (scaleMax ≤ v.k * f → (zoomBy f px py v).k = scaleMax) := by
  obtain ⟨k, x, y⟩ := v
  simp only at *
  have hk0 : (0:ℚ) < k := lt_of_lt_of_le (by norm_num [scaleMin]) hk1
  have hkne : k ≠ 0 := ne_of_gt hk0
  refine ⟨?_, ?_, ?_, ?_⟩
  · intro h1 h2
    have hf0 : f ≠ 0 := by
      rintro rfl
      simp only [mul_zero] at h1
      norm_num [scaleMin] at h1
    have e1 : clampScale (k * f) = k * f := by
      unfold clampScale
      rw [min_eq_right h2, max_eq_right h1]
    have e2 : clampScale (k * f * (1/f)) = k := by
      have hkk : k * f * (1/f) = k := by field_simp
      rw [hkk]
      unfold clampScale
      rw [min_eq_right hk2, max_eq_right hk1]
    simp only [zoomBy, e1, e2, Transform.mk.injEq]
    refine ⟨trivial, ?_, ?_⟩ <;> (field_simp; ring)
  · simp only [zoomBy, applyT, invertT, Prod.mk.injEq]
    constructor <;> (field_simp; ring)
  · intro h
    have hle : k * f ≤ scaleMax := le_trans h (by norm_num [scaleMin, scaleMax])
    simp only [zoomBy, clampScale]
    rw [min_eq_right hle, max_eq_left h]
  · intro h
    simp only [zoomBy, clampScale]
    rw [min_eq_left h]
    exact max_eq_right (by norm_num [scaleMin, scaleMax])

/-- Witness for the C9 theorem at scale 1, factor 2, pivot (100, 50),
translate (10, 20). -/
theorem zoomBy_inverse_and_pivot_witness :
    zoomBy (1/2) 100 50 (zoomBy 2 100 50 ⟨1, 10, 20⟩) = ⟨1, 10, 20⟩ ∧
    applyT (zoomBy 2 100 50 ⟨1, 10, 20⟩) (invertT ⟨1, 10, 20⟩ (100, 50)) = (100, 50) := by
  have h := zoomBy_inverse_and_pivot ⟨1, 10, 20⟩ 2 100 50
    (by norm_num [scaleMin]) (by norm_num [scaleMax])
  exact ⟨h.1 (by norm_num [scaleMin]) (by norm_num [scaleMax]), h.2.1⟩

/-- C10: starting from any transform whose scale is inside `[0.1, 4]`
(in particular the centering transform's 0.8), any sequence of pan and
zoom operations keeps the scale inside `[0.1, 4]` — every zoom is a
clamped multiplicative update and pan never touches the scale. -/
theorem scale_invariant (ops : List ViewportOp) (v : Transform)
    (h1 : scaleMin ≤ v.k) (h2 : v.k ≤ scaleMax) :
    (scaleMin ≤ (ops.foldl stepViewport v).k ∧
      (ops.foldl stepViewport v).k ≤ scaleMax) ∧
    (∀ dx dy, (stepViewport v (ViewportOp.pan dx dy)).k = v.k) := by
  refine ⟨?_, fun _ _ => rfl⟩
  induction ops generalizing v with
  | nil => exact ⟨h1, h2⟩
  | cons op rest ih =>
    apply ih
    all_goals cases op with
      | pan dx dy => first | exact h1 | exact h2
      | zoom f px py =>
        simp only [stepViewport, zoomBy, clampScale]
        first
        | exact le_max_left _ _
        | exact max_le (by norm_num [scaleMin, scaleMax]) (min_le_left _ _)

/-- Witness for the C10 theorem: a concrete pan/zoom/zoom-out sequence
from the centering transform stays inside the extent. -/
theorem scale_invariant_witness :
    scaleMin ≤ (([ViewportOp.pan 5 7, ViewportOp.zoom 100 0 0,
        ViewportOp.zoom (1/1000) 3 4].foldl stepViewport centeringTransform)).k ∧
    (([ViewportOp.pan 5 7, ViewportOp.zoom 100 0 0,
        ViewportOp.zoom (1/1000) 3 4].foldl stepViewport centeringTransform)).k ≤ scaleMax :=
  (scale_invariant _ centeringTransform (by norm_num [scaleMin, centeringTransform])
    (by norm_num [scaleMax, centeringTransform])).1

/-! ### HierarchyBuilder claims (C2, C3) -/

/-- List part of `nodePaths_length`. -/
theorem nodePathsList_length (cs : List MindMapNode)
    (h : ∀ c ∈ cs, (nodePaths c).length = c.size) :
    ∀ i, (nodePathsList i cs).length = MindMapNode.sizeList cs := by
  induction cs with
  | nil => intro i; rfl
  | cons c rest ih =>
    intro i
    simp only [nodePathsList, MindMapNode.sizeList, List.length_append,
      List.length_map, h c (List.mem_cons_self c rest),
      ih (fun c' hc' => h c' (List.mem_cons_of_mem c hc')) (i + 1)]

/-- The component creates one DOM node per raw input node: no node is
ever dropped. -/
theorem nodePaths_length : ∀ t : MindMapNode, (nodePaths t).length = t.size := by
  apply MindMapNode.ind
  intro nm dt cs ih
  simp only [nodePaths, MindMapNode.size, List.length_cons,
    nodePathsList_length cs ih 0, Nat.add_comm]

/-- List part of `buildH_count`. -/
theorem buildHList_count (cs : List MindMapNode)
    (h : ∀ c ∈ cs, ∀ d, (buildH d c).count = c.size) :
    ∀ d, HierarchyNode.countList (buildHList d cs) = MindMapNode.sizeList cs := by
  induction cs with
  | nil => intro d; rfl
  | cons c rest ih =>
    intro d
    simp only [buildHList, HierarchyNode.countList, MindMapNode.sizeList,
      h c (List.mem_cons_self c rest) d,
      ih (fun c' hc' => h c' (List.mem_cons_of_mem c hc')) d]

/-- `d3.hierarchy` produces exactly one hierarchy node per raw node. -/
theorem buildH_count : ∀ (t : MindMapNode) (d : Nat), (buildH d t).count = t.size := by
  apply MindMapNode.ind
  intro nm dt cs ih d
  simp only [buildH, HierarchyNode.count, MindMapNode.size,
    buildHList_count cs ih (d + 1)]

/-- List part of `buildH_maxDepth`. -/
theorem buildHList_maxDepth (cs : List MindMapNode)
    (h : ∀ c ∈ cs, ∀ d, (buildH d c).maxDepth = d + c.height) :
    ∀ d, cs ≠ [] →
      HierarchyNode.maxDepthList (buildHList d cs) = d + MindMapNode.heightList cs := by
  induction cs with
  | nil => intro _ hne; exact absurd rfl hne
  | cons c rest ih =>
    intro d _
    cases rest with
    | nil =>
      simp only [buildHList, HierarchyNode.maxDepthList, MindMapNode.heightList,
        h c (List.mem_cons_self c []) d]
      omega
    | cons c2 rest2 =>
      have hrec := ih (fun c' hc' => h c' (List.mem_cons_of_mem c hc')) d (by simp)
      simp only [buildHList, HierarchyNode.maxDepthList, MindMapNode.heightList,
        h c (List.mem_cons_self c _) d] at hrec ⊢
      omega

/-- The deepest hierarchy node sits at exactly the input tree's height:
nothing is truncated, however deep the input. -/
theorem buildH_maxDepth :
    ∀ (t : MindMapNode) (d : Nat), (buildH d t).maxDepth = d + t.height := by
  apply MindMapNode.ind
  intro nm dt cs ih d
  cases cs with
  | nil => simp [buildH, buildHList, HierarchyNode.maxDepth,
      HierarchyNode.maxDepthList, MindMapNode.height]
  | cons c rest =>
    have hrec := buildHList_maxDepth (c :: rest) ih (d + 1) (by simp)
    simp only [buildH, HierarchyNode.maxDepth, MindMapNode.height, hrec]
    omega

/-- The height of the deep chain. -/
theorem chain_height : ∀ n, (chain n).height = n := by
  intro n
  induction n with
  | zero => rfl
  | succ n ih =>
    simp only [chain, MindMapNode.height, MindMapNode.heightList, ih]
    omega

/-- The deepest node of `chain n` is rendered (its path is among the
DOM node paths). -/
theorem chainPath_mem : ∀ n, chainPath n ∈ nodePaths (chain n) := by
  intro n
  induction n with
  | zero => simp [chain, chainPath, nodePaths, nodePathsList]
  | succ n ih =>
    simp only [chain, chainPath, nodePaths, nodePathsList, List.replicate_succ,
      List.append_nil, List.mem_cons, List.mem_map]
    exact Or.inr ⟨List.replicate n 0, ih, rfl⟩

/-- C2 counterexample: on a 66-node chain of depth 65 (beyond the
claimed bound of 64) no `TreeTooDeepError` exists and nothing is
truncated — the depth-65 node is laid out and rendered, contradicting
"no node deeper than the bound is laid out or rendered". -/
theorem deep_tree_not_truncated_cx :
    chainPath 65 ∈ nodePaths (chain 65) ∧ (chainPath 65).length = 65 ∧ 64 < 65 ∧
      (buildH 0 (chain 65)).maxDepth = 65 := by
  refine ⟨chainPath_mem 65, ?_, by norm_num, ?_⟩
  · simp [chainPath]
  · rw [buildH_maxDepth, chain_height]

/-- C2 amended: the code enforces no depth bound at all (no
`TreeTooDeepError` is defined anywhere): for every input tree the
hierarchy and the rendered DOM contain one node per raw node, down to
the input's full height. -/
theorem hierarchy_no_depth_bound (t : MindMapNode) :
    (buildH 0 t).count = t.size ∧ (buildH 0 t).maxDepth = t.height ∧
      (nodePaths t).length = t.size :=
  ⟨buildH_count t 0, by rw [buildH_maxDepth t 0, Nat.zero_add], nodePaths_length t⟩

/-- List part of `buildH_sameShape`. -/
theorem buildHList_sameShape (cs : List MindMapNode)
    (h : ∀ c ∈ cs, ∀ d, sameShape c (buildH d c) = true) :
    ∀ d, sameShapeList cs (buildHList d cs) = true := by
  induction cs with
  | nil => intro d; rfl
  | cons c rest ih =>
    intro d
    simp only [buildHList, sameShapeList, Bool.and_eq_true,
      h c (List.mem_cons_self c rest) d,
      ih (fun c' hc' => h c' (List.mem_cons_of_mem c hc')) d, and_self]

/-- C3 amended: no validation is performed — `d3.hierarchy` succeeds on
every input root (empty name included; no `InvalidTreeError` is defined
anywhere), producing one hierarchy node per raw node with the same name
and the children in input order. -/
theorem hierarchy_build_total :
    ∀ (t : MindMapNode) (d : Nat), sameShape t (buildH d t) = true := by
  apply MindMapNode.ind
  intro nm dt cs ih d
  simp only [buildH, sameShape, Bool.and_eq_true, decide_eq_true_eq,
    buildHList_sameShape cs ih (d + 1), and_self, true_and]

/-- C3 counterexample: a root with an empty name is built and rendered
all the same — the build does not fail fast and the root node is
rendered, contradicting "fails fast with InvalidTreeError and nothing
is rendered". -/
theorem empty_name_built_and_rendered_cx :
    sameShape emptyNameRoot (buildH 0 emptyNameRoot) = true ∧
      [] ∈ nodePaths emptyNameRoot ∧ nameAt emptyNameRoot [] = "" := by
  refine ⟨hierarchy_build_total emptyNameRoot 0, ?_, rfl⟩
  simp [emptyNameRoot, nodePaths, nodePathsList]

/-! ### SearchHighlighter machinery -/

/-- A proper prefix of a non-empty list is exactly a prefix of its
`dropLast`. -/
theorem proper_prefix_iff (cur p : List Nat) (h : cur ≠ []) :
    (p <+: cur ∧ p ≠ cur) ↔ p <+: cur.dropLast := by
  obtain ⟨dl, a, rfl⟩ : ∃ dl a, cur = dl ++ [a] := by
    refine ⟨cur.dropLast, cur.getLast h, ?_⟩
    rw [List.dropLast_concat_getLast h]
  rw [List.dropLast_concat]
  constructor
  · rintro ⟨h1, hne⟩
    rcases List.prefix_concat_iff.mp h1 with he | hp
    · exact absurd he hne
    · exact hp
  · intro hp
    refine ⟨List.prefix_concat_iff.mpr (Or.inr hp), fun he => ?_⟩
    have := hp.length_le
    subst he
    simp at this

/-- A prefix of a non-empty list is the list itself or a prefix of its
`dropLast`. -/
theorem prefix_split (cur p : List Nat) (h : cur ≠ []) :
    p <+: cur ↔ p = cur ∨ p <+: cur.dropLast := by
  obtain ⟨dl, a, rfl⟩ : ∃ dl a, cur = dl ++ [a] := by
    refine ⟨cur.dropLast, cur.getLast h, ?_⟩
    rw [List.dropLast_concat_getLast h]
  rw [List.dropLast_concat]
  exact List.prefix_concat_iff

/-- What `walkUp` does to node visuals: exactly the proper prefixes of
`cur` (the parents on the chain to the root) get opacity 1; everything
else is untouched. -/
theorem walkUpFuel_node (n : Nat) :
    ∀ (g : GraphDom) (cur p : List Nat), cur.length ≤ n →
      (walkUpFuel n g cur).node p =
        if p <+: cur ∧ p ≠ cur then { g.node p with opacity := 1 } else g.node p := by
  induction n with
  | zero =>
    intro g cur p hn
    have hc : cur = [] := List.eq_nil_of_length_eq_zero (Nat.le_zero.mp hn)
    subst hc
    have hno : ¬(p <+: ([] : List Nat) ∧ p ≠ []) := by
      rintro ⟨h1, h2⟩
      exact h2 (List.prefix_nil.mp h1)
    rw [if_neg hno]
    rfl
  | succ n ih =>
    intro g cur p hn
    by_cases hc : cur = []
    · subst hc
      have hno : ¬(p <+: ([] : List Nat) ∧ p ≠ []) := by
        rintro ⟨h1, h2⟩
        exact h2 (List.prefix_nil.mp h1)
      rw [if_neg hno]
      simp [walkUpFuel]
    · have hlen : cur.dropLast.length ≤ n := by
        have h1 := List.length_dropLast cur
        have h2 : 0 < cur.length := List.length_pos.mpr hc
        omega
      rw [walkUpFuel, if_neg hc, ih _ _ p hlen]
      by_cases hpe : p = cur.dropLast
      · subst hpe
        rw [if_neg (fun hx => hx.2 rfl),
          if_pos ((proper_prefix_iff cur _ hc).mpr (List.prefix_refl _))]
        simp [updNode, updLink]
      · by_cases hdl : p <+: cur.dropLast
        · rw [if_pos ⟨hdl, hpe⟩, if_pos ((proper_prefix_iff cur p hc).mpr hdl)]
          simp [updNode, updLink, hpe]
        · rw [if_neg (fun hx => hdl hx.1),
            if_neg (fun hx => hdl ((proper_prefix_iff cur p hc).mp hx))]
          simp [updNode, updLink, hpe]

theorem walkUp_node (g : GraphDom) (cur p : List Nat) :
    (walkUp g cur).node p =
      if p <+: cur ∧ p ≠ cur then { g.node p with opacity := 1 } else g.node p :=
  walkUpFuel_node cur.length g cur p le_rfl

/-- What `walkUp` does to link visuals: exactly the links whose target
is a non-empty prefix of `cur` (the edges on the chain to the root) get
the highlight stroke; everything else is untouched. -/
theorem walkUpFuel_link (n : Nat) :
    ∀ (g : GraphDom) (cur e : List Nat), cur.length ≤ n →
      (walkUpFuel n g cur).link e =
        if e <+: cur ∧ e ≠ [] then hlLink (g.link e) else g.link e := by
  induction n with
  | zero =>
    intro g cur e hn
    have hc : cur = [] := List.eq_nil_of_length_eq_zero (Nat.le_zero.mp hn)
    subst hc
    have hno : ¬(e <+: ([] : List Nat) ∧ e ≠ []) := by
      rintro ⟨h1, h2⟩
      exact h2 (List.prefix_nil.mp h1)
    rw [if_neg hno]
    rfl
  | succ n ih =>
    intro g cur e hn
    by_cases hc : cur = []
    · subst hc
      have hno : ¬(e <+: ([] : List Nat) ∧ e ≠ []) := by
        rintro ⟨h1, h2⟩
        exact h2 (List.prefix_nil.mp h1)
      rw [if_neg hno]
      simp [walkUpFuel]
    · have hlen : cur.dropLast.length ≤ n := by
        have h1 := List.length_dropLast cur
        have h2 : 0 < cur.length := List.length_pos.mpr hc
        omega
      rw [walkUpFuel, if_neg hc, ih _ _ e hlen]
      by_cases hdl : e <+: cur.dropLast ∧ e ≠ []
      · have hecur : e ≠ cur := by
          rintro rfl
          have h1 := hdl.1.length_le
          have h2 : e.dropLast.length = e.length - 1 := List.length_dropLast e
          have h3 : 0 < e.length := List.length_pos.mpr hc
          omega
        rw [if_pos hdl,
          if_pos ⟨(prefix_split cur e hc).mpr (Or.inr hdl.1), hdl.2⟩]
        simp [updNode, updLink, hecur]
      · rw [if_neg hdl]
        by_cases hcur : e <+: cur ∧ e ≠ []
        · rw [if_pos hcur]
          rcases (prefix_split cur e hc).mp hcur.1 with he | hp
          · subst he
            simp [updNode, updLink]
          · exact absurd ⟨hp, hcur.2⟩ hdl
        · rw [if_neg hcur]
          have hne : e ≠ cur := by
            rintro rfl
            rcases Classical.em (e = []) with he | he
            · exact hc he
            · exact hcur ⟨List.prefix_refl e, he⟩
          simp [updNode, updLink, hne]

theorem walkUp_link (g : GraphDom) (cur e : List Nat) :
    (walkUp g cur).link e =
      if e <+: cur ∧ e ≠ [] then hlLink (g.link e) else g.link e :=
  walkUpFuel_link cur.length g cur e le_rfl

/-- Overriding the opacity of an already matched-painted node changes
nothing. -/
theorem matchedVis_op1 (v : NodeVisual) :
    matchedVis { v with opacity := 1 } = matchedVis v := rfl

/-- `matchedVis` is idempotent. -/
theorem matchedVis_idem (v : NodeVisual) :
    matchedVis (matchedVis v) = matchedVis v := rfl

/-- Raising the opacity of a matched-painted node changes nothing. -/
theorem op1_matchedVis (v : NodeVisual) :
    { matchedVis v with opacity := 1 } = matchedVis v := rfl

/-- `hlLink` is idempotent. -/
theorem hlLink_idem (l : LinkVisual) : hlLink (hlLink l) = hlLink l := rfl

/-- What `applyMatch` does to node visuals. -/
theorem applyMatch_node (g : GraphDom) (m p : List Nat) :
    (applyMatch g m).node p =
      if p = m then matchedVis (g.node p)
      else if p <+: m ∧ p ≠ m then { g.node p with opacity := 1 }
      else g.node p := by
  unfold applyMatch
  rw [walkUp_node]
  by_cases hC : p = m
  · subst hC
    rw [if_neg (fun hc => hc.2 rfl), if_pos rfl]
    simp [updNode]
  · rw [if_neg hC]
    by_cases hD : p <+: m ∧ p ≠ m
    · rw [if_pos hD, if_pos hD]
      simp [updNode, hC]
    · rw [if_neg hD, if_neg hD]
      simp [updNode, hC]

/-- What `applyMatch` does to link visuals. -/
theorem applyMatch_link (g : GraphDom) (m e : List Nat) :
    (applyMatch g m).link e =
      if e <+: m ∧ e ≠ [] then hlLink (g.link e) else g.link e := by
  unfold applyMatch
  rw [walkUp_link]
  rfl

/-- Node visuals after processing a whole list of matches: matched
nodes get the match paint, strict ancestors of matches get opacity 1,
everything else is untouched. -/
theorem foldl_applyMatch_node (ms : List (List Nat)) (g : GraphDom) (p : List Nat) :
    (ms.foldl applyMatch g).node p =
      if p ∈ ms then matchedVis (g.node p)
      else if ∃ m ∈ ms, p <+: m ∧ p ≠ m then { g.node p with opacity := 1 }
      else g.node p := by
  induction ms generalizing g with
  | nil => simp
  | cons m ms ih =>
    rw [List.foldl_cons, ih, applyMatch_node]
    by_cases hC : p = m
    · subst hC
      rw [if_pos rfl, if_pos (List.mem_cons_self p ms)]
      by_cases hA : p ∈ ms
      · rw [if_pos hA, matchedVis_idem]
      · rw [if_neg hA]
        by_cases hB : ∃ m' ∈ ms, p <+: m' ∧ p ≠ m'
        · rw [if_pos hB, op1_matchedVis]
        · rw [if_neg hB]
    · rw [if_neg hC]
      have hmemn : p ∉ ms → p ∉ m :: ms := by
        intro hA hc
        rcases List.mem_cons.mp hc with rfl | hc'
        · exact hC rfl
        · exact hA hc'
      by_cases hD : p <+: m ∧ p ≠ m
      · rw [if_pos hD]
        by_cases hA : p ∈ ms
        · rw [if_pos hA, if_pos (List.mem_cons_of_mem m hA), matchedVis_op1]
        · rw [if_neg hA, if_neg (hmemn hA),
            if_pos (⟨m, List.mem_cons_self m ms, hD⟩ :
              ∃ m' ∈ m :: ms, p <+: m' ∧ p ≠ m')]
          by_cases hB : ∃ m' ∈ ms, p <+: m' ∧ p ≠ m'
          · rw [if_pos hB]
          · rw [if_neg hB]
      · rw [if_neg hD]
        have hBiff : (∃ m' ∈ m :: ms, p <+: m' ∧ p ≠ m') ↔
            (∃ m' ∈ ms, p <+: m' ∧ p ≠ m') := by
          simp only [List.mem_cons]
          constructor
          · rintro ⟨m', hm', hpp⟩
            rcases hm' with rfl | hm'
            · exact absurd hpp hD
            · exact ⟨m', hm', hpp⟩
          · rintro ⟨m', hm', hpp⟩
            exact ⟨m', Or.inr hm', hpp⟩
        by_cases hA : p ∈ ms
        · rw [if_pos hA, if_pos (List.mem_cons_of_mem m hA)]
        · rw [if_neg hA, if_neg (hmemn hA)]
          by_cases hB : ∃ m' ∈ ms, p <+: m' ∧ p ≠ m'
          · rw [if_pos hB, if_pos (hBiff.mpr hB)]
          · rw [if_neg hB, if_neg (fun hc => hB (hBiff.mp hc))]

/-- Link visuals after processing a whole list of matches: links whose
target is a non-empty prefix of some match get the highlight paint,
everything else is untouched. -/
theorem foldl_applyMatch_link (ms : List (List Nat)) (g : GraphDom) (e : List Nat) :
    (ms.foldl applyMatch g).link e =
      if ∃ m ∈ ms, e <+: m ∧ e ≠ [] then hlLink (g.link e) else g.link e := by
  induction ms generalizing g with
  | nil => simp
  | cons m ms ih =>
    rw [List.foldl_cons, ih, applyMatch_link]
    by_cases hD : e <+: m ∧ e ≠ []
    · rw [if_pos hD]
      have hBx : ∃ m' ∈ m :: ms, e <+: m' ∧ e ≠ [] := ⟨m, List.mem_cons_self m ms, hD⟩
      rw [if_pos hBx]
      by_cases hB : ∃ m' ∈ ms, e <+: m' ∧ e ≠ []
      · rw [if_pos hB, hlLink_idem]
      · rw [if_neg hB]
    · rw [if_neg hD]
      have hBiff : (∃ m' ∈ m :: ms, e <+: m' ∧ e ≠ []) ↔
          (∃ m' ∈ ms, e <+: m' ∧ e ≠ []) := by
        simp only [List.mem_cons]
        constructor
        · rintro ⟨m', hm', hpp⟩
          rcases hm' with rfl | hm'
          · exact absurd hpp hD
          · exact ⟨m', hm', hpp⟩
        · rintro ⟨m', hm', hpp⟩
          exact ⟨m', Or.inr hm', hpp⟩
      by_cases hB : ∃ m' ∈ ms, e <+: m' ∧ e ≠ []
      · rw [if_pos hB, if_pos (hBiff.mpr hB)]
      · rw [if_neg hB, if_neg (fun hc => hB (hBiff.mp hc))]

/-- JS `includes` is the contiguous-substring (infix) relation. -/
theorem jsIncludes_iff (s sub : List Char) :
    jsIncludes s sub = true ↔ sub <:+: s := by
  induction s with
  | nil =>
    simp only [jsIncludes, List.isEmpty_iff, List.infix_nil]
  | cons c rest ih =>
    simp only [jsIncludes, Bool.or_eq_true, List.isPrefixOf_iff_prefix, ih,
      List.infix_cons_iff]

/-- Node visuals after the whole search effect with a non-empty query:
matched nodes carry the match paint over the reset-plus-dim base,
strict ancestors of matches are un-dimmed, and every other node is the
reset base dimmed to 0.3 — in all three cases independent of the
incoming colours. -/
theorem applyHighlight_node (t : MindMapNode) (q : String) (g : GraphDom)
    (p : List Nat) (hq : q ≠ "") :
    (applyHighlight t q g).node p =
      if p ∈ matchedPaths t q then
        matchedVis { g.node p with
                     fill := palette p.length, stroke := "#94a3b8",
                     r := if p.length = 0 then 10 else 6, textFill := "#1e293b",
                     fontWeight := "normal", opacity := 3/10 }
      else if ∃ m ∈ matchedPaths t q, p <+: m ∧ p ≠ m then
        { g.node p with
          fill := palette p.length, stroke := "#94a3b8",
          r := if p.length = 0 then 10 else 6, textFill := "#1e293b",
          fontWeight := "normal", opacity := 1 }
      else
        { g.node p with
          fill := palette p.length, stroke := "#94a3b8",
          r := if p.length = 0 then 10 else 6, textFill := "#1e293b",
          fontWeight := "normal", opacity := 3/10 } := by
  unfold applyHighlight
  rw [if_neg hq, foldl_applyMatch_node]
  rfl

/-- Link visuals after the whole search effect with a non-empty query:
links on a match's root path carry the highlight paint, all others the
reset stroke dimmed to 0.3 — independent of the incoming colours. -/
theorem applyHighlight_link (t : MindMapNode) (q : String) (g : GraphDom)
    (e : List Nat) (hq : q ≠ "") :
    (applyHighlight t q g).link e =
      if ∃ m ∈ matchedPaths t q, e <+: m ∧ e ≠ [] then
        hlLink { g.link e with
                 stroke := "#cbd5e1", strokeOpacity := 1, opacity := 3/10 }
      else
        { g.link e with
          stroke := "#cbd5e1", strokeOpacity := 1, opacity := 3/10 } := by
  unfold applyHighlight
  rw [if_neg hq, foldl_applyMatch_link]
  rfl

/-! ### SearchHighlighter claims (C4, C5, C6) and hover (C8) -/

/-- C4 counterexample: set the query "kine", then change the input tree
to one whose node `Kinetics` (path `[0]`) matches.  The main effect
rebuilds the DOM with base visuals, but the search effect (deps
`[searchQuery]` only, line 191) does not rerun, so the new tree's match
is NOT highlighted: the visible state differs from the wholesale
recompute from the current `(tree, query)`. -/
theorem stale_highlight_after_tree_change_cx :
    ((runComp (initComp physicsTree)
        [Event.setQuery "kine", Event.setData chemTree]).dom.node [0]).fill
      ≠ ((applyHighlight chemTree "kine" (baseRender chemTree)).node [0]).fill ∧
    (runComp (initComp physicsTree)
        [Event.setQuery "kine", Event.setData chemTree]).query = "kine" := by
  constructor
  · decide
  · rfl

/-- C4 amended: the visible highlight classification (node opacity and
fill, link stroke and opacity) equals the wholesale recompute from the
current tree and query right after any change to a NON-EMPTY query,
whatever visual state the DOM was in; but a tree change rebuilds the
DOM with plain base visuals without rerunning the search effect, so
with a non-empty query active the new tree shows no highlighting until
the next query change. -/
theorem highlight_recompute_semantics :
    (∀ (t : MindMapNode) (q : String) (g : GraphDom) (p e : List Nat), q ≠ "" →
      ((applyHighlight t q g).node p).opacity
          = ((applyHighlight t q (baseRender t)).node p).opacity ∧
      ((applyHighlight t q g).node p).fill
          = ((applyHighlight t q (baseRender t)).node p).fill ∧
      ((applyHighlight t q g).link e).stroke
          = ((applyHighlight t q (baseRender t)).link e).stroke ∧
      ((applyHighlight t q g).link e).opacity
          = ((applyHighlight t q (baseRender t)).link e).opacity) ∧
    (∀ (s : CompState) (tNew : MindMapNode),
      (stepComp s (Event.setData tNew)).dom = baseRender tNew ∧
      (stepComp s (Event.setData tNew)).query = s.query) := by
  constructor
  · intro t q g p e hq
    rw [applyHighlight_node t q g p hq, applyHighlight_node t q (baseRender t) p hq,
      applyHighlight_link t q g e hq, applyHighlight_link t q (baseRender t) e hq]
    refine ⟨?_, ?_, ?_, ?_⟩
    · by_cases h1 : p ∈ matchedPaths t q
      · rw [if_pos h1, if_pos h1]
        rfl
      · rw [if_neg h1, if_neg h1]
        by_cases h2 : ∃ m ∈ matchedPaths t q, p <+: m ∧ p ≠ m
        · rw [if_pos h2, if_pos h2]
        · rw [if_neg h2, if_neg h2]
    · by_cases h1 : p ∈ matchedPaths t q
      · rw [if_pos h1, if_pos h1]
        rfl
      · rw [if_neg h1, if_neg h1]
        by_cases h2 : ∃ m ∈ matchedPaths t q, p <+: m ∧ p ≠ m
        · rw [if_pos h2, if_pos h2]
        · rw [if_neg h2, if_neg h2]
    · by_cases h1 : ∃ m ∈ matchedPaths t q, e <+: m ∧ e ≠ []
      · rw [if_pos h1, if_pos h1]
        rfl
      · rw [if_neg h1, if_neg h1]
    · by_cases h1 : ∃ m ∈ matchedPaths t q, e <+: m ∧ e ≠ []
      · rw [if_pos h1, if_pos h1]
        rfl
      · rw [if_neg h1, if_neg h1]
  · intro s tNew
    exact ⟨rfl, rfl⟩

/-- Witness for the C4 amended theorem: recomputing "mech" over a DOM
still carrying the previous "kine" highlight gives the same visible
classification as recomputing over a fresh render. -/
theorem highlight_recompute_semantics_witness :
    ((applyHighlight physicsTree "mech"
        (applyHighlight physicsTree "kine" (baseRender physicsTree))).node [1]).opacity
      = ((applyHighlight physicsTree "mech" (baseRender physicsTree)).node [1]).opacity :=
  ((highlight_recompute_semantics.1 physicsTree "mech"
    (applyHighlight physicsTree "kine" (baseRender physicsTree)) [1] [0]
    (by decide)).1)

/-- C5: if a node matches the (non-empty) query, then after the search
effect every strict ancestor up to the root is rendered un-dimmed
(opacity 1) and every edge on the ancestor chain is rendered
highlighted (red stroke, width 2, full opacity), whatever DOM state the
effect ran on — even when the intermediate ancestors do not match. -/
theorem match_path_highlighted (t : MindMapNode) (q : String) (g : GraphDom)
    (p : List Nat) (hp : p ∈ matchedNodeIds t q) :
    (∀ a, a <+: p → a ≠ p → ((applyHighlight t q g).node a).opacity = 1) ∧
    (∀ e, e <+: p → e ≠ [] →
      ((applyHighlight t q g).link e).stroke = "#ef4444" ∧
      ((applyHighlight t q g).link e).strokeWidth = 2 ∧
      ((applyHighlight t q g).link e).opacity = 1) := by
  have hq : q ≠ "" := by
    intro h
    rw [h] at hp
    simp [matchedNodeIds] at hp
  have hp' : p ∈ matchedPaths t q := by
    rw [matchedNodeIds, if_neg hq] at hp
    exact hp
  constructor
  · intro a ha hane
    rw [applyHighlight_node t q g a hq]
    by_cases ham : a ∈ matchedPaths t q
    · rw [if_pos ham]
      rfl
    · rw [if_neg ham, if_pos ⟨p, hp', ha, hane⟩]
  · intro e he hene
    rw [applyHighlight_link t q g e hq, if_pos ⟨p, hp', he, hene⟩]
    exact ⟨rfl, rfl, rfl⟩

/-- Witness for the C5 theorem: `Kinematics` (path `[0, 0]`) matches
"kine"; its ancestors `Mechanics` and the root are un-dimmed and both
chain edges are highlighted. -/
theorem match_path_highlighted_witness :
    ((applyHighlight physicsTree "kine" (baseRender physicsTree)).node []).opacity = 1 ∧
    ((applyHighlight physicsTree "kine" (baseRender physicsTree)).node [0]).opacity = 1 ∧
    ((applyHighlight physicsTree "kine" (baseRender physicsTree)).link [0, 0]).stroke
      = "#ef4444" ∧
    ((applyHighlight physicsTree "kine" (baseRender physicsTree)).link [0]).stroke
      = "#ef4444" := by
  have h := match_path_highlighted physicsTree "kine" (baseRender physicsTree)
    [0, 0] (by decide)
  exact ⟨h.1 [] (by decide) (by decide), h.1 [0] (by decide) (by decide),
    (h.2 [0, 0] (by decide) (by decide)).1, (h.2 [0] (by decide) (by decide)).1⟩

/-- C6: a node is matched iff the query (lower-cased) is a contiguous
substring of its lower-cased name — for non-empty queries; the empty
query yields an empty match set and the effect reduces to the reset
pass (no dimming, no highlighting).  On the Physics example, "kine"
matches exactly `Kinematics`, un-dims the path `Kinematics`–
`Mechanics`–`Physics`, and dims `Optics`. -/
theorem search_matching_rule :
    (∀ (t : MindMapNode) (q : String) (p : List Nat), q ≠ "" →
      (p ∈ matchedNodeIds t q ↔
        p ∈ nodePaths t ∧ lowerChars q.toList <:+: lowerChars (nameAt t p).toList)) ∧
    (∀ t : MindMapNode, matchedNodeIds t "" = [] ∧
      ∀ g : GraphDom, applyHighlight t "" g = resetPass g) ∧
    (matchedNodeIds physicsTree "kine" = [[0, 0]] ∧
      ((applyHighlight physicsTree "kine" (baseRender physicsTree)).node [0, 0]).fill
        = "#ef4444" ∧
      ((applyHighlight physicsTree "kine" (baseRender physicsTree)).node [0, 0]).opacity = 1 ∧
      ((applyHighlight physicsTree "kine" (baseRender physicsTree)).node [0]).opacity = 1 ∧
      ((applyHighlight physicsTree "kine" (baseRender physicsTree)).node []).opacity = 1 ∧
      ((applyHighlight physicsTree "kine" (baseRender physicsTree)).node [1]).opacity = 3/10) := by
  refine ⟨?_, ?_, ?_⟩
  · intro t q p hq
    rw [matchedNodeIds, if_neg hq]
    unfold matchedPaths
    rw [List.mem_filter]
    rw [show (nodeMatches t q p = true) ↔
        (lowerChars q.toList <:+: lowerChars (nameAt t p).toList) from
      jsIncludes_iff _ _]
  · intro t
    refine ⟨by rw [matchedNodeIds, if_pos rfl], fun g => ?_⟩
    unfold applyHighlight
    rw [if_pos rfl]
  · exact ⟨by decide, by decide, rfl, rfl, rfl, rfl⟩

/-- Witness for the C6 theorem: the matching-rule equivalence,
instantiated at the Physics tree with query "kine" and path `[0, 0]`. -/
theorem search_matching_rule_witness :
    [0, 0] ∈ matchedNodeIds physicsTree "kine" ↔
      [0, 0] ∈ nodePaths physicsTree ∧
        lowerChars "kine".toList <:+: lowerChars (nameAt physicsTree [0, 0]).toList :=
  search_matching_rule.1 physicsTree "kine" [0, 0] (by decide)

/-- C8 (code bug): a matched node carries stroke `#b91c1c` and a bold
label; hover-enter followed by hover-leave does NOT restore them — the
mouseout handler (lines 108–111) checks the CSS class `highlighted`,
which no code ever assigns, so it always falls into the non-highlighted
branch and repaints stroke `#94a3b8` / normal weight.  Other nodes and
the highlight classification (opacity, fill) are untouched. -/
theorem hover_leave_drops_match_paint :
    ((applyHighlight physicsTree "kine" (baseRender physicsTree)).node [0, 0]).stroke
        = "#b91c1c" ∧
    ((applyHighlight physicsTree "kine" (baseRender physicsTree)).node [0, 0]).fontWeight
        = "bold" ∧
    ((hoverLeave (hoverEnter (applyHighlight physicsTree "kine"
        (baseRender physicsTree)) [0, 0]) [0, 0]).node [0, 0]).stroke = "#94a3b8" ∧
    ((hoverLeave (hoverEnter (applyHighlight physicsTree "kine"
        (baseRender physicsTree)) [0, 0]) [0, 0]).node [0, 0]).fontWeight = "normal" ∧
    ((applyHighlight physicsTree "kine" (baseRender physicsTree)).node [0, 0]).classHighlighted
        = false ∧
    (hoverLeave (hoverEnter (applyHighlight physicsTree "kine"
        (baseRender physicsTree)) [0, 0]) [0, 0]).node [1]
      = (applyHighlight physicsTree "kine" (baseRender physicsTree)).node [1] ∧
    ((hoverLeave (hoverEnter (applyHighlight physicsTree "kine"
        (baseRender physicsTree)) [0, 0]) [0, 0]).node [0, 0]).opacity
      = ((applyHighlight physicsTree "kine" (baseRender physicsTree)).node [0, 0]).opacity ∧
    ((hoverLeave (hoverEnter (applyHighlight physicsTree "kine"
        (baseRender physicsTree)) [0, 0]) [0, 0]).node [0, 0]).fill
      = ((applyHighlight physicsTree "kine" (baseRender physicsTree)).node [0, 0]).fill := by
  exact ⟨by decide, by decide, by decide, by decide, by decide, rfl, rfl, by decide⟩

/-! ### Path and enumeration lemmas for the layout proofs -/

/-- `threadFix` leaves `z` alone and can only add threads at its target. -/
theorem threadFix_thr_sub (st : TreeWork) (w : List Nat)
    (tgt nr : Option (List Nat)) (d : ℚ) (x y : List Nat) :
    (threadFix st w tgt nr d).thr x = some y →
      st.thr x = some y ∨ (x = w ∧ tgt = some y) := by
  unfold threadFix
  split
  · next u heq1 heq2 =>
    unfold addM setM setThr
    simp only
    by_cases hx : x = w
    · rw [if_pos hx, Option.some.injEq]
      rintro rfl
      exact Or.inr ⟨hx, rfl⟩
    · rw [if_neg hx]
      exact fun h => Or.inl h
  · next _ =>
    exact fun h => Or.inl h

end Synapse
